import Mathlib

/-!
Shallow embedding of `psrcal/losses.py` (repository `luferrer/psr-calibration`)
over exact rational arithmetic.

Conventions of the embedding:
* A probability matrix of `N` samples and `K+1` classes is a function
  `Fin N → Fin (K+1) → ℚ`; functions of the source that only consume
  `probs = exp(log_probs)` (Brier, CostFunction, ECE, ECE_v2) take this
  probability matrix directly as input.
* Functions of the source that consume log-probabilities directly
  (`LogLoss`) take the log-domain matrix `Fin N → Fin (K+1) → ℚ` as input.
  The transcendental natural logarithm applied by the source to prior
  vectors (`torch.log(priors...)`) is abstracted by an explicit parameter
  `qlog : ℚ → ℚ`; every theorem that needs a property of the real
  logarithm states it as a hypothesis on `qlog`.
* `torch.max(x, axis=1)` returns the maximal value together with the index
  of the first maximal entry; `argmin` ties likewise go to the first
  minimal entry.  These are modelled with `List.argmax` / `List.argmin`
  over `List.finRange`, whose tie-breaking is identical.
* Rational division by zero is `0`; every place where the source would
  produce a NaN or an infinity from a division is discussed at the
  corresponding theorem.
-/

/-- Index of the first maximal entry of a vector, as returned by
`torch.max(·, axis=1)` / used implicitly through `argmin` ties. -/
def firstArgmax {K : ℕ} (v : Fin (K + 1) → ℚ) : Fin (K + 1) :=
  (List.argmax v (List.finRange (K + 1))).getD ⟨0, Nat.succ_pos K⟩

/-- Index of the first minimal entry of a vector, as returned by
`torch.argmin(·, axis=-1)`. -/
def firstArgmin {K : ℕ} (v : Fin (K + 1) → ℚ) : Fin (K + 1) :=
  (List.argmin v (List.finRange (K + 1))).getD ⟨0, Nat.succ_pos K⟩

/-- Per-sample predicted class: `torch.max(probs, axis=1).indices`. -/
def preds {N K : ℕ} (P : Fin N → Fin (K + 1) → ℚ) (i : Fin N) : Fin (K + 1) :=
  firstArgmax (P i)

/-- Per-sample confidence: `torch.max(probs, axis=1).values`, i.e. the value
of the probability matrix at the first argmax. -/
def conf {N K : ℕ} (P : Fin N → Fin (K + 1) → ℚ) (i : Fin N) : ℚ :=
  P i (preds P i)

/-- Empirical class priors `torch.bincount(labels)/float(labels.shape[0])`. -/
def dataPriors {N K : ℕ} (y : Fin N → Fin (K + 1)) (k : Fin (K + 1)) : ℚ :=
  ((Finset.univ.filter fun i => y i = k).card : ℚ) / N

/-- Embedding of `_get_priors_and_weights(labels, priors)` from
`psrcal/losses.py`: returns the resolved prior vector together with the
per-sample weight vector.  The scalar weight `torch.tensor(1.0)` of the
`priors is None` branch broadcasts over samples, so it is materialised as
the constant-one vector. -/
def get_priors_and_weights {N K : ℕ} (y : Fin N → Fin (K + 1))
    (priors : Option (Fin (K + 1) → ℚ)) : (Fin (K + 1) → ℚ) × (Fin N → ℚ) :=
  match priors with
  | none => (dataPriors y, fun _ => 1)
  | some p => (p, fun i => p (y i) / dataPriors y (y i))

/-- Core of `LogLoss` (lines 42-47 of `psrcal/losses.py`): per-sample losses
`-log_probs[ii, labels]`, multiplied by the weights, with the entries at
zero weight overwritten by `0` (`wlosses[weights==0] = 0`), then averaged. -/
def LogLossCore {N K : ℕ} (L : Fin N → Fin (K + 1) → ℚ) (y : Fin N → Fin (K + 1))
    (w : Fin N → ℚ) : ℚ :=
  (∑ i, if w i = 0 then 0 else w i * (-(L i (y i)))) / N

/-- Embedding of `LogLoss(log_probs, labels, norm, priors)`.  The recursive
normalisation call
`LogLoss(torch.log(priors.expand(N,-1)), labels, norm=False, priors=priors)`
is unfolded: its log-probability matrix has every row equal to `qlog ∘ priors`
(`qlog` abstracting the real logarithm) and its weights come from
`_get_priors_and_weights(labels, priors)` with the resolved prior. -/
def LogLoss (qlog : ℚ → ℚ) {N K : ℕ} (L : Fin N → Fin (K + 1) → ℚ)
    (y : Fin N → Fin (K + 1)) (norm : Bool) (priors : Option (Fin (K + 1) → ℚ)) : ℚ :=
  let pw := get_priors_and_weights y priors
  let nf : ℚ :=
    if norm then
      LogLossCore (fun _ k => qlog (pw.1 k)) y (get_priors_and_weights y (some pw.1)).2
    else 1
  LogLossCore L y pw.2 / nf

/-- One-hot encoding of the labels (`onehot_encode` from `psrcal/utils.py`). -/
def onehot {N K : ℕ} (y : Fin N → Fin (K + 1)) (i : Fin N) (k : Fin (K + 1)) : ℚ :=
  if y i = k then 1 else 0

/-- Core of `Brier` (lines 73-76 of `psrcal/losses.py`): squared differences
between the one-hot labels and the probabilities, each row scaled by its
sample weight (`torch.atleast_2d(weights).T*losses` broadcasts the weight
over the class axis), averaged over all `N*(K+1)` matrix entries. -/
def BrierCore {N K : ℕ} (P : Fin N → Fin (K + 1) → ℚ) (y : Fin N → Fin (K + 1))
    (w : Fin N → ℚ) : ℚ :=
  (∑ i, ∑ k, w i * (onehot y i k - P i k) ^ 2) / (N * (K + 1))

/-- Embedding of `Brier(log_probs, labels, norm, priors)`, stated over the
probability matrix `P = exp(log_probs)`.  The normalisation call
`Brier(torch.log(priors.expand(N,-1)), labels, norm=False, priors=priors)`
exponentiates back to rows equal to the resolved prior, so no logarithm is
needed. -/
def Brier {N K : ℕ} (P : Fin N → Fin (K + 1) → ℚ) (y : Fin N → Fin (K + 1))
    (norm : Bool) (priors : Option (Fin (K + 1) → ℚ)) : ℚ :=
  let pw := get_priors_and_weights y priors
  let nf : ℚ :=
    if norm then
      BrierCore (fun _ k => pw.1 k) y (get_priors_and_weights y (some pw.1)).2
    else 1
  BrierCore P y pw.2 / nf

/-- Column minimum `C.min(axis=0)` of a cost matrix. -/
def colMin {K : ℕ} (C : Fin (K + 1) → Fin (K + 1) → ℚ) (j : Fin (K + 1)) : ℚ :=
  Finset.univ.inf' Finset.univ_nonempty (fun i => C i j)

/-- In-place normalisation `C -= C.min(axis=0)` of the cost matrix. -/
def normalizeCost {K : ℕ} (C : Fin (K + 1) → Fin (K + 1) → ℚ)
    (i j : Fin (K + 1)) : ℚ :=
  C i j - colMin C j

/-- The default 0/1 cost matrix `1 - np.eye(K)`. -/
def defaultCost (K : ℕ) (i j : Fin (K + 1)) : ℚ :=
  if i = j then 0 else 1

/-- Bayes decision `(p @ C.T).argmin(axis=-1)` for a single probability
vector `p` under (already normalised) cost matrix `C`. -/
def decisions {K : ℕ} (C : Fin (K + 1) → Fin (K + 1) → ℚ)
    (p : Fin (K + 1) → ℚ) : Fin (K + 1) :=
  firstArgmin (fun i => ∑ j, p j * C i j)

/-- Embedding of the body of `CostFunction` after the cost matrix `C0` has
been chosen (either the caller-supplied array or the default): normalises the
columns, takes per-sample Bayes decisions, looks up realised costs, and
divides the mean cost by the prior cost when `norm` is set. -/
def CostFunctionWithC {N K : ℕ} (P : Fin N → Fin (K + 1) → ℚ)
    (y : Fin N → Fin (K + 1)) (C0 : Fin (K + 1) → Fin (K + 1) → ℚ)
    (norm : Bool) : ℚ :=
  let C := normalizeCost C0
  let costsMean : ℚ := (∑ i, C (decisions C (P i)) (y i)) / N
  let priorCost : ℚ :=
    if norm then (∑ i, C (decisions C (dataPriors y)) (y i)) / N else 1
  costsMean / priorCost

/-- Embedding of `CostFunction(log_probs, labels, C, norm)`, stated over the
probability matrix `P = exp(log_probs)`. -/
def CostFunction {N K : ℕ} (P : Fin N → Fin (K + 1) → ℚ) (y : Fin N → Fin (K + 1))
    (Copt : Option (Fin (K + 1) → Fin (K + 1) → ℚ)) (norm : Bool) : ℚ :=
  CostFunctionWithC P y (Copt.getD (defaultCost K)) norm

/-- State-passing embedding of `CostFunction` for a caller-supplied cost
matrix: the returned pair is (function result, array the caller's `C`
variable holds after the call).  The in-place `C -= C.min(axis=0)` on the
caller's numpy array makes the final state the column-normalised matrix. -/
def CostFunctionState {N K : ℕ} (P : Fin N → Fin (K + 1) → ℚ)
    (y : Fin N → Fin (K + 1)) (C0 : Fin (K + 1) → Fin (K + 1) → ℚ)
    (norm : Bool) : ℚ × (Fin (K + 1) → Fin (K + 1) → ℚ) :=
  (CostFunctionWithC P y C0 norm, normalizeCost C0)

/-- Bin membership `low < conf <= high` with `low = j/M`, `high = (j+1)/M`
(`np.linspace(0, 1, num=M+1)` produces the limits `j/M`). -/
def inBin (M j : ℕ) (c : ℚ) : Prop :=
  (j : ℚ) / M < c ∧ c ≤ ((j : ℚ) + 1) / M

instance (M j : ℕ) (c : ℚ) : Decidable (inBin M j c) :=
  inferInstanceAs (Decidable (_ ∧ _))

/-- Samples falling in bin `j`: `ix = (low < confs) & (confs <= high)`. -/
def binSamples {N K : ℕ} (P : Fin N → Fin (K + 1) → ℚ) (M j : ℕ) :
    Finset (Fin N) :=
  Finset.univ.filter fun i => inBin M j (conf P i)

/-- Average confidence in bin `j` (`torch.mean(curr_confs)`); `0` when the
bin is empty (the source never evaluates it there). -/
def aveConf {N K : ℕ} (P : Fin N → Fin (K + 1) → ℚ) (M j : ℕ) : ℚ :=
  (∑ i ∈ binSamples P M j, conf P i) / (binSamples P M j).card

/-- Empirical accuracy in bin `j`
(`torch.mean((curr_preds == curr_target).float())`); `0` when the bin is
empty. -/
def aveAcc {N K : ℕ} (P : Fin N → Fin (K + 1) → ℚ) (y : Fin N → Fin (K + 1))
    (M j : ℕ) : ℚ :=
  (((binSamples P M j).filter fun i => preds P i = y i).card : ℚ) /
    (binSamples P M j).card

/-- Embedding of `ECE(log_probs, target, M)` (multiclass branch), stated over
the probability matrix `P = exp(log_probs)`.  The loop accumulates
`n * |ave_conf - ave_acc|` over the bins; a bin with `n == 0` is skipped by
`continue`, and indeed contributes `0` to this sum. -/
def ECE {N K : ℕ} (P : Fin N → Fin (K + 1) → ℚ) (y : Fin N → Fin (K + 1))
    (M : ℕ) : ℚ :=
  (∑ j ∈ Finset.range M,
    ((binSamples P M j).card : ℚ) * |aveConf P M j - aveAcc P y M j|) * 100 / N

/-- Bin index of a confidence `c ∈ (0,1]` under `M` equal-width bins: the
unique `j` with `j/M < c ≤ (j+1)/M`. -/
def binOf (M : ℕ) (c : ℚ) : ℕ :=
  (⌈c * M⌉ - 1).toNat

/-- Samples whose confidence falls in the same histogram bin as sample `i`,
for the spec-modelled histogram-binning calibrator with `Mc` bins. -/
def hbSet {N K : ℕ} (Mc : ℕ) (P : Fin N → Fin (K + 1) → ℚ) (i : Fin N) :
    Finset (Fin N) :=
  Finset.univ.filter fun i' => binOf Mc (conf P i') = binOf Mc (conf P i)

/-- Modelled from the spec: the calibrated score `exp(log_probs2_cal)` that
the missing `psrcal.calibration.HistogramBinningCal` produces for sample `i`
when trained and evaluated on the same scores — the empirical frequency, in
sample `i`'s bin, of the binary target `preds == target` (glossary:
"replacing each score by its bin's empirical outcome frequency"). -/
def hbCal {N K : ℕ} (Mc : ℕ) (P : Fin N → Fin (K + 1) → ℚ)
    (y : Fin N → Fin (K + 1)) (i : Fin N) : ℚ :=
  (((hbSet Mc P i).filter fun i' => preds P i' = y i').card : ℚ) /
    (hbSet Mc P i).card

/-- Modelled from the spec: `params[0]` of the missing histogram-binning
calibrator — the per-sample binned raw score, i.e. the average of the
(probability-domain) scores that fall in sample `i`'s bin. -/
def hbBinned {N K : ℕ} (Mc : ℕ) (P : Fin N → Fin (K + 1) → ℚ) (i : Fin N) : ℚ :=
  (∑ i' ∈ hbSet Mc P i, conf P i') / (hbSet Mc P i).card

/-- Default number of bins of the spec-modelled histogram-binning calibrator.
The spec leaves the calibrator's bin count unspecified ("not specified
further here; out of core scope"); `15` is the default `M` of every ECE
function in the source, so it is the natural modelled default. -/
def hbDefaultBins : ℕ := 15

/-- Embedding of `ECE_v2(log_probs, target, M)`, stated over the probability
matrix `P = exp(log_probs)`: reduce to the binary problem `preds == target`,
calibrate the confidences with the spec-modelled histogram-binning
calibrator (trained and evaluated on the same data), and return
`torch.mean(torch.abs(probs2_cal - probs2_binned)) * 100`.  The parameter
`M` is accepted but never used by the source: `psrcalcal.calibrate` is
called without it, so the calibrator always bins with its own default. -/
def ECE_v2 {N K : ℕ} (P : Fin N → Fin (K + 1) → ℚ) (y : Fin N → Fin (K + 1))
    (_M : ℕ) : ℚ :=
  (∑ i, |hbCal hbDefaultBins P y i - hbBinned hbDefaultBins P i|) / N * 100

/-- Embedding of `CalLossLogLoss(log_probs, cal_log_probs, targets, priors)`.
The source calls `LogLoss(log_probs, targets, priors)`, passing the external
prior *positionally into the `norm` parameter*.  With `priors=None` this
makes `norm` falsy, so both losses are computed unnormalised and unweighted;
with a supplied prior, `if norm:` evaluates the truth value of a tensor with
`K+2 ≥ 2` elements, which raises `RuntimeError` in torch — modelled as
`Except.error`.  Class count is `K+2` so that the prior tensor always has at
least two elements. -/
def CalLossLogLoss (qlog : ℚ → ℚ) {N K : ℕ} (L calL : Fin N → Fin (K + 2) → ℚ)
    (y : Fin N → Fin (K + 2)) (priors : Option (Fin (K + 2) → ℚ)) :
    Except String ℚ :=
  match priors with
  | some _ => .error "Boolean value of Tensor with more than one element is ambiguous"
  | none =>
    let raw := LogLoss qlog L y false none
    let cal := LogLoss qlog calL y false none
    .ok ((raw - cal) / raw * 100)

/-- Embedding of `CalLossBrier(log_probs, cal_log_probs, targets, priors)`,
stated over probability matrices; same positional-argument behaviour as
`CalLossLogLoss`. -/
def CalLossBrier {N K : ℕ} (P calP : Fin N → Fin (K + 2) → ℚ)
    (y : Fin N → Fin (K + 2)) (priors : Option (Fin (K + 2) → ℚ)) :
    Except String ℚ :=
  match priors with
  | some _ => .error "Boolean value of Tensor with more than one element is ambiguous"
  | none =>
    let raw := Brier P y false none
    let cal := Brier calP y false none
    .ok ((raw - cal) / raw * 100)

/-- Core of `LogLoss` over the log-domain extended with `-∞`: an input entry
`none` stands for a log-probability of `-inf`.  A weighted loss is `some 0`
when the weight is `0` (the mask `wlosses[weights==0] = 0`), and `none`
(non-finite, NaN/inf in floating point) when an unmasked entry is `-inf`.
The score is the mean when every weighted loss is finite, `none` otherwise. -/
def LogLossCoreExt {N K : ℕ} (L : Fin N → Fin (K + 1) → Option ℚ)
    (y : Fin N → Fin (K + 1)) (w : Fin N → ℚ) : Option ℚ :=
  let wl : Fin N → Option ℚ :=
    fun i => if w i = 0 then some 0 else (L i (y i)).map fun q => w i * (-q)
  if ∀ i, (wl i).isSome then some ((∑ i, (wl i).getD 0) / N) else none

/-- Modelled from the spec: `check_label` is imported by `psrcal/losses.py`
from `psrcal.utils` but is not present in that file as shipped; per the
spec's error taxonomy it validates that label values lie in `[0, K)` and
returns them.  On `Fin`-indexed label vectors the validation always
succeeds, so it is the identity on the labels. -/
def check_label {N K : ℕ} (y : Fin N → Fin (K + 1)) (_n_classes : ℕ) :
    Fin N → Fin (K + 1) :=
  y

/-- The per-class scaling vector `So = K**0.5 * eof/eof.norm()` of `shift`,
with `eof = torch.exp(off)`.  The transcendental exponential and square root
are abstracted by the parameters `rexp` and `rsqrt` (`eof.norm()` is the
Euclidean norm, i.e. the square root of the sum of squares); theorems state
the needed facts about them as hypotheses. -/
def So {K : ℕ} (rexp rsqrt : ℚ → ℚ) (off : Fin (K + 1) → ℚ) (k : Fin (K + 1)) : ℚ :=
  rsqrt ((K : ℚ) + 1) * rexp (off k) / rsqrt (∑ j, rexp (off j) ^ 2)

/-- Embedding of `shift(loss, off)` applied to `(log_probs, labels)`: the
shifted log-probabilities are renormalised with
`torch.softmax(log_probs + off, dim=1)` (that is,
`rexp (lp+off) / Σ rexp (lp+off)` per row), the wrapped loss is evaluated on
their logarithm, and the per-class result is contracted with the scaling
vector (`loss(...) @ So.reshape(-1, 1)`).  The wrapped `loss` is modelled as
per-class valued, as required for the matrix product with the `K×1` reshaped
scaling vector; `qlog` abstracts `torch.log`. -/
def shift {N K : ℕ} (rexp rsqrt qlog : ℚ → ℚ)
    (loss : (Fin N → Fin (K + 1) → ℚ) → (Fin N → Fin (K + 1)) → Fin (K + 1) → ℚ)
    (off : Fin (K + 1) → ℚ) (lp : Fin N → Fin (K + 1) → ℚ)
    (y : Fin N → Fin (K + 1)) : ℚ :=
  let label := check_label y (K + 1)
  let qs : Fin N → Fin (K + 1) → ℚ :=
    fun i k => rexp (lp i k + off k) / ∑ j, rexp (lp i j + off j)
  ∑ k, loss (fun i k => qlog (qs i k)) label k * So rexp rsqrt off k

/-- Concrete two-sample, two-class probability matrix used by several
concrete instantiations: rows `[13/20, 7/20]` and `[3/4, 1/4]`. -/
def exP (i k : Fin 2) : ℚ :=
  if i = 0 then (if k = 0 then 13 / 20 else 7 / 20)
  else (if k = 0 then 3 / 4 else 1 / 4)

/-- Concrete label vector `[0, 1]` paired with `exP`: the first sample is
predicted correctly, the second is not. -/
def exY (i : Fin 2) : Fin 2 := i

/-! Helper lemmas -/

theorem firstArgmax_spec {K : ℕ} (v : Fin (K + 1) → ℚ) (k : Fin (K + 1)) :
    v k ≤ v (firstArgmax v) := by
  have hne : List.finRange (K + 1) ≠ [] := by
    simp [← List.length_pos]
  obtain ⟨m, hm⟩ : ∃ m, List.argmax v (List.finRange (K + 1)) = some m := by
    cases h : List.argmax v (List.finRange (K + 1)) with
    | none => exact absurd (List.argmax_eq_none.mp h) hne
    | some m => exact ⟨m, rfl⟩
  have : firstArgmax v = m := by simp [firstArgmax, hm]
  rw [this]
  exact List.le_of_mem_argmax (List.mem_finRange k) (by simp [hm])

theorem argmin_sub_eq_argmax {α : Type} (S : ℚ) (p : α → ℚ) (l : List α) :
    List.argmin (fun i => S - p i) l = List.argmax p l := by
  induction l with
  | nil => rfl
  | cons a t ih =>
    rw [List.argmin_cons, List.argmax_cons, ih]
    cases List.argmax p t with
    | none => rfl
    | some c =>
      simp only [Option.casesOn]
      by_cases h : p a < p c
      · rw [if_pos (by simpa [sub_lt_sub_iff_left] using h), if_pos h]
      · rw [if_neg (by simpa [sub_lt_sub_iff_left] using h), if_neg h]

theorem firstArgmin_shift_eq_firstArgmax {K : ℕ} (S : ℚ) (p : Fin (K + 1) → ℚ) :
    firstArgmin (fun i => S - p i) = firstArgmax p := by
  unfold firstArgmin firstArgmax
  rw [argmin_sub_eq_argmax]

theorem inBin_iff_binOf {M j : ℕ} {c : ℚ} (hM : 0 < M) (hc0 : 0 < c)
    (hc1 : c ≤ 1) : inBin M j c ↔ j = binOf M c := by
  have hMQ : (0 : ℚ) < (M : ℚ) := by exact_mod_cast hM
  have hceil : (1 : ℤ) ≤ ⌈c * M⌉ := by
    have : (0 : ℚ) < c * M := mul_pos hc0 hMQ
    exact Int.ceil_pos.mpr this
  constructor
  · rintro ⟨h1, h2⟩
    have h1' : (j : ℚ) < c * M := by
      rw [div_lt_iff hMQ] at h1; linarith
    have h2' : c * M ≤ (j : ℚ) + 1 := by
      rw [le_div_iff hMQ] at h2; linarith
    have hc : ⌈c * M⌉ = (j : ℤ) + 1 := by
      apply Int.ceil_eq_iff.mpr
      constructor
      · push_cast; linarith
      · push_cast; linarith
    simp [binOf, hc]
  · intro hj
    have hofZ : (binOf M c : ℤ) = ⌈c * M⌉ - 1 := by
      simp only [binOf]
      exact Int.toNat_of_nonneg (by omega)
    have hc : ⌈c * M⌉ = (j : ℤ) + 1 := by
      rw [hj]; omega
    have := Int.ceil_eq_iff.mp hc
    obtain ⟨hl, hr⟩ := this
    constructor
    · rw [div_lt_iff hMQ]
      have : ((j : ℤ) + 1 - 1 : ℚ) < c * M := by exact_mod_cast hl
      push_cast at this ⊢; linarith
    · rw [le_div_iff hMQ]
      have : c * M ≤ (((j : ℤ) + 1 : ℤ) : ℚ) := by exact_mod_cast hr
      push_cast at this ⊢; linarith

theorem binOf_lt {M : ℕ} {c : ℚ} (hM : 0 < M) (hc0 : 0 < c) (hc1 : c ≤ 1) :
    binOf M c < M := by
  have hMQ : (0 : ℚ) < (M : ℚ) := by exact_mod_cast hM
  have h1 : (1 : ℤ) ≤ ⌈c * M⌉ := Int.ceil_pos.mpr (mul_pos hc0 hMQ)
  have h2 : ⌈c * M⌉ ≤ (M : ℤ) := by
    apply Int.ceil_le.mpr
    calc c * M ≤ 1 * M := by
          exact mul_le_mul_of_nonneg_right hc1 (le_of_lt hMQ)
      _ = (M : ℚ) := one_mul _
  simp only [binOf]
  omega

theorem conf_mem_Ioc {N K : ℕ} (P : Fin N → Fin (K + 1) → ℚ) (i : Fin N)
    (h0 : ∀ k, 0 ≤ P i k) (h1 : ∑ k, P i k = 1) :
    0 < conf P i ∧ conf P i ≤ 1 := by
  constructor
  · by_contra h
    push_neg at h
    have hall : ∀ k, P i k ≤ 0 := fun k => le_trans (firstArgmax_spec (P i) k) h
    have : (∑ k, P i k) ≤ 0 := Finset.sum_nonpos (fun k _ => hall k)
    rw [h1] at this
    norm_num at this
  · calc conf P i ≤ ∑ k, P i k :=
        Finset.single_le_sum (fun k _ => h0 k) (Finset.mem_univ _)
    _ = 1 := h1

theorem colMin_defaultCost (K : ℕ) (j : Fin (K + 1)) :
    colMin (defaultCost K) j = 0 := by
  apply le_antisymm
  · have h1 := Finset.inf'_le (fun i => defaultCost K i j) (Finset.mem_univ j)
    have h2 : defaultCost K j j = 0 := by simp [defaultCost]
    exact h2 ▸ h1
  · apply Finset.le_inf'
    intro i _
    by_cases h : i = j <;> simp [defaultCost, h]

theorem normalizeCost_defaultCost (K : ℕ) :
    normalizeCost (defaultCost K) = defaultCost K := by
  funext i j
  simp [normalizeCost, colMin_defaultCost]

theorem dot_defaultCost {K : ℕ} (p : Fin (K + 1) → ℚ) (i : Fin (K + 1)) :
    (∑ j, p j * defaultCost K i j) = (∑ j, p j) - p i := by
  have h : ∀ j : Fin (K + 1), p j * defaultCost K i j = p j - (if i = j then p j else 0) := by
    intro j
    by_cases hij : i = j <;> simp [defaultCost, hij]
  rw [Finset.sum_congr rfl (fun j _ => h j), Finset.sum_sub_distrib]
  congr 1
  rw [Finset.sum_ite_eq]
  simp

theorem decisions_defaultCost {K : ℕ} (p : Fin (K + 1) → ℚ) :
    decisions (defaultCost K) p = firstArgmax p := by
  unfold decisions
  have h : (fun i => ∑ j, p j * defaultCost K i j) =
      (fun i => (∑ j, p j) - p i) := by
    funext i
    exact dot_defaultCost p i
  rw [h, firstArgmin_shift_eq_firstArgmax]

/-! Claim C6 -/

/-- C6: `CostFunction` with no cost matrix (hence the default `1 - eye`
matrix) and `norm=False` returns exactly the fraction of samples whose
first-argmax prediction differs from the label.  Holds because the default
matrix already has zero column minima, and the Bayes decision rule under it
minimises `Σ p - p_i`, i.e. picks the (first) argmax. -/
theorem C6_default_cost_error_rate {N K : ℕ} (P : Fin N → Fin (K + 1) → ℚ)
    (y : Fin N → Fin (K + 1)) :
    CostFunction P y none false =
      ((Finset.univ.filter fun i => preds P i ≠ y i).card : ℚ) / N := by
  have hC : (Option.getD (none : Option (Fin (K + 1) → Fin (K + 1) → ℚ))
      (defaultCost K)) = defaultCost K := rfl
  simp only [CostFunction, hC, CostFunctionWithC, normalizeCost_defaultCost,
    decisions_defaultCost, Bool.false_eq_true, if_false, div_one]
  congr 1
  have h : ∀ i, defaultCost K (firstArgmax (P i)) (y i) =
      if preds P i ≠ y i then (1 : ℚ) else 0 := by
    intro i
    have hpre : firstArgmax (P i) = preds P i := rfl
    rw [hpre]
    by_cases hi : preds P i = y i <;> simp [defaultCost, hi]
  rw [Finset.sum_congr rfl fun i _ => h i, Finset.sum_boole]

theorem colMin_normalizeCost {K : ℕ} (C : Fin (K + 1) → Fin (K + 1) → ℚ)
    (j : Fin (K + 1)) : colMin (normalizeCost C) j = 0 := by
  obtain ⟨i0, -, hi0⟩ :=
    Finset.exists_mem_eq_inf' (Finset.univ_nonempty (α := Fin (K + 1)))
      (fun i => C i j)
  apply le_antisymm
  · have h1 := Finset.inf'_le (fun i => normalizeCost C i j) (Finset.mem_univ i0)
    have h2 : normalizeCost C i0 j = 0 := by
      simp [normalizeCost, colMin, ← hi0]
    exact h2 ▸ h1
  · apply Finset.le_inf'
    intro i _
    have := Finset.inf'_le (fun i => C i j) (Finset.mem_univ i)
    simp only [normalizeCost, colMin, sub_nonneg]
    exact this

theorem normalizeCost_idem {K : ℕ} (C : Fin (K + 1) → Fin (K + 1) → ℚ) :
    normalizeCost (normalizeCost C) = normalizeCost C := by
  funext i j
  simp [normalizeCost, colMin_normalizeCost, normalizeCost]

/-! Claim C9 -/

/-- C9 counterexample: with the caller-supplied all-ones 2×2 cost matrix,
the array the caller's variable refers to after `CostFunction` returns is
the zero matrix (every column minimum, `1`, was subtracted in place by
`C -= C.min(axis=0)`), so the claim that the call leaves `C` unchanged is
false. -/
theorem C9_counterexample :
    (CostFunctionState (fun (_ : Fin 1) (_ : Fin 2) => (1 : ℚ) / 2)
      (fun _ => 0) (fun _ _ => 1) false).2 ≠ (fun _ _ => (1 : ℚ)) := by
  intro h
  have h00 := congrFun (congrFun h 0) 0
  have hc : colMin (fun (_ _ : Fin 2) => (1 : ℚ)) 0 = 1 :=
    Finset.inf'_const Finset.univ_nonempty 1
  simp only [CostFunctionState, normalizeCost, hc] at h00
  norm_num at h00

/-- C9 amended: `CostFunction` is pure except for the cost-matrix argument,
which it normalises in place: the caller's array afterwards holds
`C - C.min(axis=0)`.  The mutation is idempotent and value-preserving: a
second call on the already-mutated array returns the same result and leaves
the array fixed. -/
theorem C9_mutation_characterised {N K : ℕ} (P : Fin N → Fin (K + 1) → ℚ)
    (y : Fin N → Fin (K + 1)) (C0 : Fin (K + 1) → Fin (K + 1) → ℚ)
    (norm : Bool) :
    (CostFunctionState P y C0 norm).2 = normalizeCost C0 ∧
    CostFunctionState P y (normalizeCost C0) norm =
      (CostFunctionWithC P y C0 norm, normalizeCost C0) := by
  refine ⟨rfl, ?_⟩
  have h : CostFunctionWithC P y (normalizeCost C0) norm =
      CostFunctionWithC P y C0 norm := by
    unfold CostFunctionWithC
    rw [normalizeCost_idem]
  simp [CostFunctionState, h, normalizeCost_idem]


/-! Claim C10 -/

/-- C10: for a nonempty label vector and an external prior vector (per the
data model, nonnegative), every per-sample weight produced by
`_get_priors_and_weights` is a well-defined nonnegative rational, zero
exactly when the external prior puts mass `0` on that sample's label; the
division by the empirical prior cannot divide by zero because the empirical
prior of an observed label is at least `1/N`. -/
theorem C10_weights_wellformed {N K : ℕ} (y : Fin N → Fin (K + 1))
    (p : Fin (K + 1) → ℚ) (hp : ∀ k, 0 ≤ p k) (i : Fin N) :
    (1 : ℚ) / N ≤ dataPriors y (y i) ∧
    0 ≤ (get_priors_and_weights y (some p)).2 i ∧
    ((get_priors_and_weights y (some p)).2 i = 0 ↔ p (y i) = 0) := by
  have hN : (0 : ℚ) < N := by
    have h := Fin.pos i
    exact_mod_cast h
  have hcard : (1 : ℚ) ≤ ((Finset.univ.filter fun i' => y i' = y i).card : ℚ) := by
    have h0 : 0 < (Finset.univ.filter fun i' => y i' = y i).card :=
      Finset.card_pos.mpr ⟨i, Finset.mem_filter.mpr ⟨Finset.mem_univ i, rfl⟩⟩
    exact_mod_cast h0
  have hdp : (1 : ℚ) / N ≤ dataPriors y (y i) := by
    unfold dataPriors
    gcongr
  have hdp0 : 0 < dataPriors y (y i) := lt_of_lt_of_le (by positivity) hdp
  refine ⟨hdp, ?_, ?_⟩
  · exact div_nonneg (hp (y i)) (le_of_lt hdp0)
  · constructor
    · intro h
      rcases div_eq_zero_iff.mp h with h1 | h2
      · exact h1
      · exact absurd h2 (ne_of_gt hdp0)
    · intro h
      simp [get_priors_and_weights, h]

/-- C10 witness: labels `[0, 1]`, external prior `[1, 0]`, sample `0`. -/
theorem C10_witness :
    (1 : ℚ) / 2 ≤ dataPriors (fun i : Fin 2 => i) ((fun i : Fin 2 => i) 0) ∧
    0 ≤ (get_priors_and_weights (fun i : Fin 2 => i)
      (some fun k => if k = 0 then 1 else 0)).2 0 ∧
    ((get_priors_and_weights (fun i : Fin 2 => i)
        (some fun k => if k = 0 then 1 else 0)).2 0 = 0 ↔
      (if (0 : Fin 2) = 0 then (1 : ℚ) else 0) = 0) :=
  C10_weights_wellformed (fun i : Fin 2 => i)
    (fun k => if k = 0 then 1 else 0) (by decide) 0

/-! Claim C8 -/

/-- C8: comparing a distribution with itself, `CalLossLogLoss` returns
exactly `0` whenever the raw log-loss it computes is nonzero.  Because the
external prior is passed into `LogLoss`'s `norm` slot and is absent here,
the raw loss the source actually computes is the unnormalised, unweighted
one; `(raw - raw)/raw*100 = 0` regardless. -/
theorem C8_selfcal_zero (qlog : ℚ → ℚ) {N K : ℕ} (L : Fin N → Fin (K + 2) → ℚ)
    (y : Fin N → Fin (K + 2)) (hraw : LogLoss qlog L y false none ≠ 0) :
    CalLossLogLoss qlog L L y none = .ok 0 := by
  show Except.ok ((LogLoss qlog L y false none - LogLoss qlog L y false none) /
      LogLoss qlog L y false none * 100) = Except.ok 0
  rw [sub_self, zero_div, zero_mul]

/-- C8 witness: a concrete two-sample, two-class input with nonzero raw
log-loss. -/
theorem C8_witness :
    CalLossLogLoss (fun q => q) (fun (_ : Fin 2) (_ : Fin 2) => -1)
      (fun _ _ => -1) (fun i => i) none = .ok 0 :=
  C8_selfcal_zero (fun q => q) (fun _ _ => -1) (fun i => i) (by
    simp [LogLoss, LogLossCore, get_priors_and_weights, Fin.sum_univ_two])

/-! Claim C2 -/

/-- C2: evaluating the embedded `CalLossLogLoss`/`CalLossBrier` at a
concrete input with an external prior shows the failure: the prior is passed
positionally into the `norm` parameter of `LogLoss`/`Brier`, where the
truth-value test of a multi-element tensor raises, so no percentage using
prior-reweighted losses is ever produced. -/
theorem C2_CalLoss_prior_misrouted :
    CalLossLogLoss (fun q => q) (fun (_ : Fin 2) (_ : Fin 2) => -1)
        (fun _ _ => -2) (fun i => i)
        (some fun k => if k = 0 then 3 / 4 else 1 / 4) =
      .error "Boolean value of Tensor with more than one element is ambiguous" ∧
    CalLossBrier (fun (_ : Fin 2) (_ : Fin 2) => 1 / 2) (fun _ _ => 1 / 2)
        (fun i => i) (some fun k => if k = 0 then 3 / 4 else 1 / 4) =
      .error "Boolean value of Tensor with more than one element is ambiguous" :=
  ⟨rfl, rfl⟩

/-! Claim C3 -/

theorem LogLossCoreExt_congr {N K : ℕ} (L L' : Fin N → Fin (K + 1) → Option ℚ)
    (y : Fin N → Fin (K + 1)) (w : Fin N → ℚ)
    (h : ∀ i, w i ≠ 0 → L i (y i) = L' i (y i)) :
    LogLossCoreExt L y w = LogLossCoreExt L' y w := by
  unfold LogLossCoreExt
  have hwl : (fun i => if w i = 0 then (some (0 : ℚ))
      else (L i (y i)).map fun q => w i * (-q)) =
      (fun i => if w i = 0 then (some (0 : ℚ))
      else (L' i (y i)).map fun q => w i * (-q)) := by
    funext i
    by_cases hw : w i = 0
    · simp [hw]
    · simp [hw, h i hw]
  rw [hwl]

theorem BrierCore_congr {N K : ℕ} (P P' : Fin N → Fin (K + 1) → ℚ)
    (y : Fin N → Fin (K + 1)) (w : Fin N → ℚ)
    (h : ∀ i, w i ≠ 0 → P i = P' i) :
    BrierCore P y w = BrierCore P' y w := by
  unfold BrierCore
  congr 1
  apply Finset.sum_congr rfl
  intro i _
  by_cases hw : w i = 0
  · simp [hw]
  · rw [h i hw]

/-- C3: a sample `i0` whose weight is zero because the external prior puts
no mass on its true class contributes nothing to either mean: the LogLoss
and Brier scores are unchanged when sample `i0`'s (log-)probabilities are
replaced by anything at all — including a `-inf` log-probability for the
true class (`none` in the extended log domain; probability `0` in the
probability domain) — and the LogLoss mean stays finite (is not `none`,
hence never NaN) as long as every sample of nonzero weight has a finite
log-probability at its label. -/
theorem C3_zero_weight_contributes_nothing {N K : ℕ}
    (L : Fin N → Fin (K + 1) → Option ℚ) (P : Fin N → Fin (K + 1) → ℚ)
    (y : Fin N → Fin (K + 1)) (p : Fin (K + 1) → ℚ) (i0 : Fin N)
    (hp0 : p (y i0) = 0) :
    (∀ r, LogLossCoreExt L y (get_priors_and_weights y (some p)).2 =
      LogLossCoreExt (Function.update L i0 r) y
        (get_priors_and_weights y (some p)).2) ∧
    (∀ pr, BrierCore P y (get_priors_and_weights y (some p)).2 =
      BrierCore (Function.update P i0 pr) y
        (get_priors_and_weights y (some p)).2) ∧
    ((∀ i, (get_priors_and_weights y (some p)).2 i ≠ 0 → (L i (y i)).isSome) →
      (LogLossCoreExt L y (get_priors_and_weights y (some p)).2).isSome) := by
  have hw0 : (get_priors_and_weights y (some p)).2 i0 = 0 := by
    simp [get_priors_and_weights, hp0]
  refine ⟨?_, ?_, ?_⟩
  · intro r
    apply LogLossCoreExt_congr
    intro i hw
    have hne : i ≠ i0 := by
      intro hEq
      exact hw (hEq ▸ hw0)
    rw [Function.update_noteq hne]
  · intro pr
    apply BrierCore_congr
    intro i hw
    have hne : i ≠ i0 := by
      intro hEq
      exact hw (hEq ▸ hw0)
    rw [Function.update_noteq hne]
  · intro hfin
    unfold LogLossCoreExt
    have hcond : ∀ i, ((if (get_priors_and_weights y (some p)).2 i = 0
        then (some (0 : ℚ))
        else (L i (y i)).map fun q =>
          (get_priors_and_weights y (some p)).2 i * (-q)).isSome) := by
      intro i
      by_cases hw : (get_priors_and_weights y (some p)).2 i = 0
      · simp [hw]
      · have h1 := hfin i hw
        simp only [hw, if_false]
        cases hLi : L i (y i) with
        | none => rw [hLi] at h1; simp at h1
        | some q => simp
    rw [if_pos hcond]
    rfl

/-- C3 witness: labels `[0, 1]`, external prior `[1, 0]` (so sample `1` has
weight `0`), replacing sample `1`'s log-probability row by all `-inf`
(`none`) and its probability row by garbage leaves both scores unchanged,
and the LogLoss mean stays finite. -/
theorem C3_witness :
    (LogLossCoreExt (fun (_ : Fin 2) (_ : Fin 2) => some (-1 : ℚ))
        (fun i => i) (get_priors_and_weights (fun i : Fin 2 => i)
          (some fun k => if k = 0 then 1 else 0)).2 =
      LogLossCoreExt (Function.update
          (fun (_ : Fin 2) (_ : Fin 2) => some (-1 : ℚ)) 1 fun _ => none)
        (fun i => i) (get_priors_and_weights (fun i : Fin 2 => i)
          (some fun k => if k = 0 then 1 else 0)).2) ∧
    (BrierCore (fun (_ : Fin 2) (_ : Fin 2) => (1 : ℚ) / 2) (fun i => i)
        (get_priors_and_weights (fun i : Fin 2 => i)
          (some fun k => if k = 0 then 1 else 0)).2 =
      BrierCore (Function.update
          (fun (_ : Fin 2) (_ : Fin 2) => (1 : ℚ) / 2) 1 fun _ => 5)
        (fun i => i) (get_priors_and_weights (fun i : Fin 2 => i)
          (some fun k => if k = 0 then 1 else 0)).2) ∧
    (LogLossCoreExt (fun (_ : Fin 2) (_ : Fin 2) => some (-1 : ℚ))
        (fun i => i) (get_priors_and_weights (fun i : Fin 2 => i)
          (some fun k => if k = 0 then 1 else 0)).2).isSome := by
  have h := C3_zero_weight_contributes_nothing
    (fun (_ : Fin 2) (_ : Fin 2) => some (-1 : ℚ)) (fun _ _ => (1 : ℚ) / 2)
    (fun i => i) (fun k => if k = 0 then 1 else 0) 1 (by simp)
  exact ⟨h.1 (fun _ => none), h.2.1 (fun _ => 5), h.2.2 (fun i _ => rfl)⟩

/-! Claim C7 -/

/-- C7: with an all-zero offset vector the scaling vector `So` reduces to
`1` for every class, and the shifted loss evaluates the wrapped loss on the
very same log-probabilities (softmax of an unshifted valid log-probability
matrix re-normalises by `1`), so its value is the wrapped per-class loss
contracted with the all-ones vector — the identity transform on the wrapped
loss's (contracted) value.  Hypotheses state the defining facts about the
abstracted exponential, square root and logarithm: `rexp 0 = 1`, the square
root of the class count is nonzero, `qlog` inverts `rexp`, and each row of
`rexp ∘ lp` sums to `1` (rows of a log-probability matrix exponentiate to a
distribution). -/
theorem C7_shift_zero_offset_identity {N K : ℕ} (rexp rsqrt qlog : ℚ → ℚ)
    (loss : (Fin N → Fin (K + 1) → ℚ) → (Fin N → Fin (K + 1)) → Fin (K + 1) → ℚ)
    (lp : Fin N → Fin (K + 1) → ℚ) (y : Fin N → Fin (K + 1))
    (hexp0 : rexp 0 = 1) (hsqrt : rsqrt ((K : ℚ) + 1) ≠ 0)
    (hinv : ∀ x, qlog (rexp x) = x)
    (hrows : ∀ i, ∑ k, rexp (lp i k) = 1) :
    (∀ k, So rexp rsqrt (fun _ : Fin (K + 1) => 0) k = 1) ∧
    shift rexp rsqrt qlog loss (fun _ => 0) lp y = ∑ k, loss lp y k := by
  have hsum : (∑ _j : Fin (K + 1), rexp 0 ^ 2) = (K : ℚ) + 1 := by
    rw [hexp0]
    rw [Finset.sum_const, Finset.card_univ, Fintype.card_fin]
    push_cast
    ring
  have hSo : ∀ k, So rexp rsqrt (fun _ : Fin (K + 1) => (0 : ℚ)) k = 1 := by
    intro k
    unfold So
    rw [hsum, hexp0, mul_one, div_self hsqrt]
  refine ⟨hSo, ?_⟩
  unfold shift
  simp only [check_label]
  have hqs : (fun i k => qlog (rexp (lp i k + (0 : ℚ)) /
      ∑ j, rexp (lp i j + (0 : ℚ)))) = lp := by
    funext i k
    have h0 : (fun j => rexp (lp i j + (0 : ℚ))) = fun j => rexp (lp i j) := by
      funext j
      rw [add_zero]
    calc qlog (rexp (lp i k + 0) / ∑ j, rexp (lp i j + 0))
        = qlog (rexp (lp i k) / 1) := by rw [add_zero, show (∑ j, rexp (lp i j + 0)) = 1 by rw [Finset.sum_congr rfl fun j _ => by rw [add_zero]]; exact hrows i]
      _ = lp i k := by rw [div_one, hinv]
  rw [hqs]
  apply Finset.sum_congr rfl
  intro k _
  rw [hSo k, mul_one]

/-- C7 witness: two classes, one sample with log-probabilities exponentiating
(under the concrete stand-in `rexp x = x + 1`, `qlog q = q - 1`,
`rsqrt _ = 3`) to the distribution `[1/2, 1/2]`, and a constant wrapped
loss. -/
theorem C7_witness :
    shift (fun x => x + 1) (fun _ => 3) (fun q => q - 1)
      (fun _ _ _ => (7 : ℚ)) (fun _ => 0)
      (fun (_ : Fin 1) (_ : Fin 2) => -(1 : ℚ) / 2) (fun _ => 0) =
      ∑ _k : Fin 2, (7 : ℚ) :=
  (C7_shift_zero_offset_identity (fun x => x + 1) (fun _ => 3) (fun q => q - 1)
    (fun _ _ _ => (7 : ℚ)) (fun _ _ => -(1 : ℚ) / 2) (fun _ => 0)
    (by norm_num) (by norm_num) (fun x => by ring)
    (fun i => by rw [Fin.sum_univ_two]; norm_num)).2

/-! Claim C5 -/

theorem dataPriors_nonneg {N K : ℕ} (y : Fin N → Fin (K + 1)) (k : Fin (K + 1)) :
    0 ≤ dataPriors y k :=
  div_nonneg (Nat.cast_nonneg _) (Nat.cast_nonneg _)

theorem dataPriors_label_ne_zero {N K : ℕ} (y : Fin N → Fin (K + 1)) (i : Fin N) :
    dataPriors y (y i) ≠ 0 := by
  unfold dataPriors
  apply div_ne_zero
  · have h0 : 0 < (Finset.univ.filter fun i' => y i' = y i).card :=
      Finset.card_pos.mpr ⟨i, Finset.mem_filter.mpr ⟨Finset.mem_univ i, rfl⟩⟩
    have h1 : ((Finset.univ.filter fun i' => y i' = y i).card : ℚ) ≠ 0 := by
      exact_mod_cast Nat.pos_iff_ne_zero.mp h0
    exact h1
  · have h0 : 0 < N := Fin.pos i
    have h1 : (N : ℚ) ≠ 0 := by
      exact_mod_cast Nat.pos_iff_ne_zero.mp h0
    exact h1

theorem weights_resolved {N K : ℕ} (y : Fin N → Fin (K + 1))
    (priors : Option (Fin (K + 1) → ℚ)) (i : Fin N) :
    (get_priors_and_weights y (some (get_priors_and_weights y priors).1)).2 i =
      (get_priors_and_weights y priors).2 i := by
  cases priors with
  | some p => rfl
  | none =>
    show dataPriors y (y i) / dataPriors y (y i) = 1
    exact div_self (dataPriors_label_ne_zero y i)

theorem weights_nonneg {N K : ℕ} (y : Fin N → Fin (K + 1))
    (priors : Option (Fin (K + 1) → ℚ))
    (hpr : ∀ k, 0 ≤ (get_priors_and_weights y priors).1 k) (i : Fin N) :
    0 ≤ (get_priors_and_weights y priors).2 i := by
  cases priors with
  | none => norm_num [get_priors_and_weights]
  | some p => exact div_nonneg (hpr (y i)) (dataPriors_nonneg y (y i))

theorem LogLossCore_nonneg {N K : ℕ} (L : Fin N → Fin (K + 1) → ℚ)
    (y : Fin N → Fin (K + 1)) (w : Fin N → ℚ) (hw : ∀ i, 0 ≤ w i)
    (hL : ∀ i, L i (y i) ≤ 0) : 0 ≤ LogLossCore L y w := by
  apply div_nonneg ?_ (Nat.cast_nonneg N)
  apply Finset.sum_nonneg
  intro i _
  by_cases h : w i = 0
  · simp [h]
  · rw [if_neg h]
    exact mul_nonneg (hw i) (neg_nonneg.mpr (hL i))

theorem BrierCore_nonneg {N K : ℕ} (P : Fin N → Fin (K + 1) → ℚ)
    (y : Fin N → Fin (K + 1)) (w : Fin N → ℚ) (hw : ∀ i, 0 ≤ w i) :
    0 ≤ BrierCore P y w := by
  apply div_nonneg
  · apply Finset.sum_nonneg
    intro i _
    apply Finset.sum_nonneg
    intro k _
    exact mul_nonneg (hw i) (sq_nonneg _)
  · positivity

theorem normalizeCost_nonneg {K : ℕ} (C : Fin (K + 1) → Fin (K + 1) → ℚ)
    (i j : Fin (K + 1)) : 0 ≤ normalizeCost C i j := by
  unfold normalizeCost
  rw [sub_nonneg]
  exact Finset.inf'_le (fun i' => C i' j) (Finset.mem_univ i)

theorem CostFunctionWithC_nonneg {N K : ℕ} (P : Fin N → Fin (K + 1) → ℚ)
    (y : Fin N → Fin (K + 1)) (C0 : Fin (K + 1) → Fin (K + 1) → ℚ)
    (norm : Bool) : 0 ≤ CostFunctionWithC P y C0 norm := by
  unfold CostFunctionWithC
  apply div_nonneg
  · apply div_nonneg ?_ (Nat.cast_nonneg N)
    apply Finset.sum_nonneg
    intro i _
    exact normalizeCost_nonneg C0 _ _
  · cases norm with
    | false => norm_num
    | true =>
      simp only [if_true]
      apply div_nonneg ?_ (Nat.cast_nonneg N)
      apply Finset.sum_nonneg
      intro i _
      exact normalizeCost_nonneg C0 _ _

/-- C5 amended: `LogLoss`, `Brier` and `CostFunction` are non-negative on
valid inputs (log-probabilities `≤ 0`, nonnegative resolved priors, the
abstracted logarithm nonpositive on prior entries — all automatic for real
inputs), and the normalised `LogLoss`/`Brier` equal exactly `1` whenever
every row of the (log-)probability matrix equals the resolved prior *and*
the normalisation factor is nonzero.  The nonzero-factor proviso is forced
by the counterexample: at a degenerate one-hot prior the source computes
`0/0`. -/
theorem C5_nonneg_and_normalized_one :
    (∀ (N K : ℕ) (qlog : ℚ → ℚ) (L : Fin N → Fin (K + 1) → ℚ)
        (y : Fin N → Fin (K + 1)) (norm : Bool)
        (priors : Option (Fin (K + 1) → ℚ)),
      (∀ i k, L i k ≤ 0) →
      (∀ k, 0 ≤ (get_priors_and_weights y priors).1 k) →
      (∀ k, qlog ((get_priors_and_weights y priors).1 k) ≤ 0) →
      0 ≤ LogLoss qlog L y norm priors) ∧
    (∀ (N K : ℕ) (P : Fin N → Fin (K + 1) → ℚ) (y : Fin N → Fin (K + 1))
        (norm : Bool) (priors : Option (Fin (K + 1) → ℚ)),
      (∀ k, 0 ≤ (get_priors_and_weights y priors).1 k) →
      0 ≤ Brier P y norm priors) ∧
    (∀ (N K : ℕ) (P : Fin N → Fin (K + 1) → ℚ) (y : Fin N → Fin (K + 1))
        (Copt : Option (Fin (K + 1) → Fin (K + 1) → ℚ)) (norm : Bool),
      0 ≤ CostFunction P y Copt norm) ∧
    (∀ (N K : ℕ) (qlog : ℚ → ℚ) (L : Fin N → Fin (K + 1) → ℚ)
        (y : Fin N → Fin (K + 1)) (priors : Option (Fin (K + 1) → ℚ)),
      (∀ i k, L i k = qlog ((get_priors_and_weights y priors).1 k)) →
      LogLossCore (fun _ k => qlog ((get_priors_and_weights y priors).1 k)) y
        (get_priors_and_weights y (some (get_priors_and_weights y priors).1)).2
        ≠ 0 →
      LogLoss qlog L y true priors = 1) ∧
    (∀ (N K : ℕ) (P : Fin N → Fin (K + 1) → ℚ) (y : Fin N → Fin (K + 1))
        (priors : Option (Fin (K + 1) → ℚ)),
      (∀ i k, P i k = (get_priors_and_weights y priors).1 k) →
      BrierCore (fun _ k => (get_priors_and_weights y priors).1 k) y
        (get_priors_and_weights y (some (get_priors_and_weights y priors).1)).2
        ≠ 0 →
      Brier P y true priors = 1) := by
  refine ⟨?_, ?_, ?_, ?_, ?_⟩
  · intro N K qlog L y norm priors hL hpr hq
    simp only [LogLoss]
    apply div_nonneg
    · exact LogLossCore_nonneg L y _ (weights_nonneg y priors hpr)
        (fun i => hL i (y i))
    · cases norm with
      | false => norm_num
      | true =>
        simp only [if_true]
        exact LogLossCore_nonneg _ y _
          (weights_nonneg y (some (get_priors_and_weights y priors).1) hpr)
          (fun i => hq (y i))
  · intro N K P y norm priors hpr
    simp only [Brier]
    apply div_nonneg
    · exact BrierCore_nonneg P y _ (weights_nonneg y priors hpr)
    · cases norm with
      | false => norm_num
      | true =>
        simp only [if_true]
        exact BrierCore_nonneg _ y _
          (weights_nonneg y (some (get_priors_and_weights y priors).1) hpr)
  · intro N K P y Copt norm
    exact CostFunctionWithC_nonneg P y _ norm
  · intro N K qlog L y priors hrow hnf
    simp only [LogLoss, if_true]
    have hcore : LogLossCore L y (get_priors_and_weights y priors).2 =
        LogLossCore (fun _ k => qlog ((get_priors_and_weights y priors).1 k)) y
          (get_priors_and_weights y
            (some (get_priors_and_weights y priors).1)).2 := by
      unfold LogLossCore
      congr 1
      apply Finset.sum_congr rfl
      intro i _
      rw [weights_resolved y priors i, hrow i (y i)]
    rw [hcore, div_self hnf]
  · intro N K P y priors hrow hnf
    simp only [Brier, if_true]
    have hcore : BrierCore P y (get_priors_and_weights y priors).2 =
        BrierCore (fun _ k => (get_priors_and_weights y priors).1 k) y
          (get_priors_and_weights y
            (some (get_priors_and_weights y priors).1)).2 := by
      unfold BrierCore
      congr 1
      apply Finset.sum_congr rfl
      intro i _
      apply Finset.sum_congr rfl
      intro k _
      rw [weights_resolved y priors i, hrow i k]
    rw [hcore, div_self hnf]

theorem BrierCore_onehot_rows_zero (w : Fin 1 → ℚ) (P' : Fin 1 → Fin 2 → ℚ)
    (hP' : ∀ i k, P' i k = if k = 0 then 1 else 0) :
    BrierCore P' (fun _ => (0 : Fin 2)) w = 0 := by
  unfold BrierCore onehot
  rw [Fin.sum_univ_one, Fin.sum_univ_two, hP' 0 0, hP' 0 1]
  norm_num

/-- C5 counterexample: one sample of class `0` out of two classes, with the
probability row `[1, 0]` equal to the empirical prior.  The premise of the
claim holds (every row equals the reweighted prior), yet the normalised
Brier score is `0/0` — `0`, not `1`, in exact arithmetic (`NaN` in the
floating-point implementation) — so "return exactly 1.0" fails without a
nonzero-normaliser proviso. -/
theorem C5_counterexample :
    (∀ (i : Fin 1) (k : Fin 2),
      (fun (_ : Fin 1) (k : Fin 2) => if k = 0 then (1 : ℚ) else 0) i k =
        (get_priors_and_weights (fun _ : Fin 1 => (0 : Fin 2)) none).1 k) ∧
    Brier (fun (_ : Fin 1) (k : Fin 2) => if k = 0 then 1 else 0)
      (fun _ => 0) true none ≠ 1 := by
  have hdp : ∀ k : Fin 2,
      dataPriors (fun _ : Fin 1 => (0 : Fin 2)) k =
        if k = 0 then (1 : ℚ) else 0 := by
    intro k
    fin_cases k
    · simp [dataPriors]
    · simp [dataPriors]
  constructor
  · intro i k
    show (if k = 0 then (1 : ℚ) else 0) =
      dataPriors (fun _ : Fin 1 => (0 : Fin 2)) k
    rw [hdp k]
  · simp only [Brier, get_priors_and_weights]
    have h1 : BrierCore (fun (_ : Fin 1) (k : Fin 2) => if k = 0 then (1 : ℚ) else 0)
        (fun _ => (0 : Fin 2)) (fun _ => 1) = 0 :=
      BrierCore_onehot_rows_zero _ _ (fun _ _ => rfl)
    have h2 : BrierCore
        (fun (_ : Fin 1) (k : Fin 2) => dataPriors (fun _ : Fin 1 => (0 : Fin 2)) k)
        (fun _ => (0 : Fin 2))
        (fun _ => dataPriors (fun _ : Fin 1 => (0 : Fin 2)) 0 /
          dataPriors (fun _ : Fin 1 => (0 : Fin 2)) 0) = 0 :=
      BrierCore_onehot_rows_zero _ _ (fun _ k => hdp k)
    rw [if_pos trivial, h1, h2]
    norm_num

theorem dataPriors_id_two (k : Fin 2) :
    dataPriors (fun i : Fin 2 => i) k = 1 / 2 := by
  show ((Finset.univ.filter fun i : Fin 2 => i = k).card : ℚ) / (2 : ℕ) = 1 / 2
  rw [Finset.filter_eq' Finset.univ k]
  simp

/-- C5 witness: concrete instances of all five conjuncts — nonnegativity of
the three losses on a valid one-sample input, and normalised LogLoss/Brier
equal to `1` for two samples whose rows equal the external prior
`[3/4, 1/4]`. -/
theorem C5_witness :
    0 ≤ LogLoss (fun _ => 0) (fun (_ : Fin 1) (_ : Fin 2) => 0)
        (fun _ => 0) true none ∧
    0 ≤ Brier (fun (_ : Fin 1) (_ : Fin 2) => 1 / 2) (fun _ => 0) true none ∧
    0 ≤ CostFunction (fun (_ : Fin 1) (_ : Fin 2) => 1 / 2)
        (fun _ => 0) none true ∧
    LogLoss (fun _ => -2) (fun (_ : Fin 2) (_ : Fin 2) => -2)
        (fun i => i) true (some fun k => if k = 0 then 3 / 4 else 1 / 4) = 1 ∧
    Brier (fun (_ : Fin 2) (k : Fin 2) => if k = 0 then 3 / 4 else 1 / 4)
        (fun i => i) true (some fun k => if k = 0 then 3 / 4 else 1 / 4) = 1 := by
  have hw : ∀ i : Fin 2,
      (get_priors_and_weights (fun i : Fin 2 => i)
        (some fun k : Fin 2 => if k = 0 then (3 : ℚ) / 4 else 1 / 4)).2 i =
      (if i = 0 then (3 : ℚ) / 4 else 1 / 4) / (1 / 2) := by
    intro i
    show (if i = 0 then (3 : ℚ) / 4 else 1 / 4) /
        dataPriors (fun i : Fin 2 => i) i = _
    rw [dataPriors_id_two]
  refine ⟨?_, ?_, ?_, ?_, ?_⟩
  · exact C5_nonneg_and_normalized_one.1 1 1 (fun _ => 0) (fun _ _ => 0)
      (fun _ => 0) true none (fun _ _ => le_refl 0)
      (fun k => dataPriors_nonneg (fun _ => 0) k) (fun _ => le_refl 0)
  · exact C5_nonneg_and_normalized_one.2.1 1 1 (fun _ _ => 1 / 2)
      (fun _ => 0) true none (fun k => dataPriors_nonneg (fun _ => 0) k)
  · exact C5_nonneg_and_normalized_one.2.2.1 1 1 (fun _ _ => 1 / 2)
      (fun _ => 0) none true
  · apply C5_nonneg_and_normalized_one.2.2.2.1 2 1 (fun _ => -2)
      (fun _ _ => -2) (fun i => i)
      (some fun k => if k = 0 then 3 / 4 else 1 / 4) (fun _ _ => rfl)
    show LogLossCore (fun _ k => (-2 : ℚ)) (fun i : Fin 2 => i) _ ≠ 0
    unfold LogLossCore
    have hwr := weights_resolved (fun i : Fin 2 => i)
      (some fun k : Fin 2 => if k = 0 then (3 : ℚ) / 4 else 1 / 4)
    rw [Fin.sum_univ_two, hwr 0, hwr 1, hw 0, hw 1]
    norm_num
  · apply C5_nonneg_and_normalized_one.2.2.2.2 2 1
      (fun _ k => if k = 0 then 3 / 4 else 1 / 4) (fun i => i)
      (some fun k => if k = 0 then 3 / 4 else 1 / 4) (fun _ _ => rfl)
    show BrierCore (fun _ k => if k = 0 then (3 : ℚ) / 4 else 1 / 4)
      (fun i : Fin 2 => i) _ ≠ 0
    unfold BrierCore onehot
    have hwr := weights_resolved (fun i : Fin 2 => i)
      (some fun k : Fin 2 => if k = 0 then (3 : ℚ) / 4 else 1 / 4)
    rw [Fin.sum_univ_two]
    rw [Fin.sum_univ_two, Fin.sum_univ_two, hwr 0, hwr 1, hw 0, hw 1]
    norm_num

/-! Claim C4 -/

/-- C4: on a valid probability matrix (rows nonnegative, summing to `1`)
and `M > 0` bins, every sample's confidence falls in exactly one of the `M`
equal-width bins under `low < conf ≤ high`, and `ECE` equals `100/N` times
the sum over the *non-empty* bins of
`binCount * |average confidence - empirical accuracy|` (empty bins are
skipped by `continue` and contribute nothing). -/
theorem C4_ECE_binning_formula {N K : ℕ} (P : Fin N → Fin (K + 1) → ℚ)
    (y : Fin N → Fin (K + 1)) (M : ℕ) (hM : 0 < M)
    (h0 : ∀ i k, 0 ≤ P i k) (h1 : ∀ i, ∑ k, P i k = 1) :
    (∀ i, ∃! j, j ∈ Finset.range M ∧ inBin M j (conf P i)) ∧
    ECE P y M = 100 / N * ∑ j ∈ (Finset.range M).filter
        (fun j => (binSamples P M j).card ≠ 0),
      ((binSamples P M j).card : ℚ) * |aveConf P M j - aveAcc P y M j| := by
  have hc : ∀ i, 0 < conf P i ∧ conf P i ≤ 1 :=
    fun i => conf_mem_Ioc P i (h0 i) (h1 i)
  constructor
  · intro i
    refine ⟨binOf M (conf P i),
      ⟨Finset.mem_range.mpr (binOf_lt hM (hc i).1 (hc i).2),
        (inBin_iff_binOf hM (hc i).1 (hc i).2).mpr rfl⟩, ?_⟩
    rintro j ⟨-, hj⟩
    exact (inBin_iff_binOf hM (hc i).1 (hc i).2).mp hj
  · have hsum : ∑ j ∈ (Finset.range M).filter
        (fun j => (binSamples P M j).card ≠ 0),
        ((binSamples P M j).card : ℚ) * |aveConf P M j - aveAcc P y M j| =
        ∑ j ∈ Finset.range M,
        ((binSamples P M j).card : ℚ) * |aveConf P M j - aveAcc P y M j| := by
      apply Finset.sum_filter_of_ne
      intro j _ hne hcard
      apply hne
      rw [hcard]
      norm_num
    rw [hsum]
    unfold ECE
    ring

/-- C4 witness: the binning formula instantiated at the concrete matrix
`exP` with labels `exY` and `M = 5` bins. -/
theorem C4_witness :
    ECE exP exY 5 = 100 / ((2 : ℕ) : ℚ) * ∑ j ∈ (Finset.range 5).filter
        (fun j => (binSamples exP 5 j).card ≠ 0),
      ((binSamples exP 5 j).card : ℚ) *
        |aveConf exP 5 j - aveAcc exP exY 5 j| :=
  (C4_ECE_binning_formula exP exY 5 (by norm_num)
    (fun i k => by fin_cases i <;> fin_cases k <;> norm_num [exP])
    (fun i => by fin_cases i <;> rw [Fin.sum_univ_two] <;> norm_num [exP])).2

/-! Claim C1 -/

theorem histogram_ece_eq {N K : ℕ} (Mc : ℕ) (hMc : 0 < Mc)
    (P : Fin N → Fin (K + 1) → ℚ) (y : Fin N → Fin (K + 1))
    (hc : ∀ i, 0 < conf P i ∧ conf P i ≤ 1) :
    (∑ i, |hbCal Mc P y i - hbBinned Mc P i|) / N * 100 = ECE P y Mc := by
  have hbin : ∀ i j, inBin Mc j (conf P i) ↔ j = binOf Mc (conf P i) :=
    fun i j => inBin_iff_binOf hMc (hc i).1 (hc i).2
  have hset : ∀ i, hbSet Mc P i = binSamples P Mc (binOf Mc (conf P i)) := by
    intro i
    unfold hbSet binSamples
    apply Finset.filter_congr
    intro i' _
    constructor
    · intro h
      rw [← h]
      exact (hbin i' (binOf Mc (conf P i'))).mpr rfl
    · intro h
      exact ((hbin i' (binOf Mc (conf P i))).mp h).symm
  have hcal : ∀ i, hbCal Mc P y i = aveAcc P y Mc (binOf Mc (conf P i)) := by
    intro i
    unfold hbCal aveAcc
    rw [hset i]
  have hbinned : ∀ i, hbBinned Mc P i = aveConf P Mc (binOf Mc (conf P i)) := by
    intro i
    unfold hbBinned aveConf
    rw [hset i]
  have hmaps : ∀ i ∈ (Finset.univ : Finset (Fin N)),
      binOf Mc (conf P i) ∈ Finset.range Mc :=
    fun i _ => Finset.mem_range.mpr (binOf_lt hMc (hc i).1 (hc i).2)
  have hgroup := Finset.sum_fiberwise_of_maps_to' hmaps
    (fun j => |aveAcc P y Mc j - aveConf P Mc j|)
  have hfiber : ∀ j, (Finset.univ.filter fun i => binOf Mc (conf P i) = j) =
      binSamples P Mc j := by
    intro j
    unfold binSamples
    apply Finset.filter_congr
    intro i _
    constructor
    · intro h
      rw [← h]
      exact (hbin i (binOf Mc (conf P i))).mpr rfl
    · intro h
      exact ((hbin i j).mp h).symm
  calc (∑ i, |hbCal Mc P y i - hbBinned Mc P i|) / N * 100
      = (∑ i, |aveAcc P y Mc (binOf Mc (conf P i)) -
          aveConf P Mc (binOf Mc (conf P i))|) / N * 100 := by
        congr 2
        apply Finset.sum_congr rfl
        intro i _
        rw [hcal i, hbinned i]
    _ = (∑ j ∈ Finset.range Mc, ∑ i ∈ Finset.univ.filter
          (fun i => binOf Mc (conf P i) = j),
          |aveAcc P y Mc j - aveConf P Mc j|) / N * 100 := by
        rw [hgroup]
    _ = (∑ j ∈ Finset.range Mc, ((binSamples P Mc j).card : ℚ) *
          |aveConf P Mc j - aveAcc P y Mc j|) / N * 100 := by
        congr 2
        apply Finset.sum_congr rfl
        intro j _
        rw [Finset.sum_const, hfiber j, nsmul_eq_mul, abs_sub_comm]
    _ = ECE P y Mc := by
        unfold ECE
        ring

/-- C1 amended: for every valid log-probability matrix (probability rows
nonnegative and summing to 1) and any `M`, `ECE_v2` equals `ECE` computed
with the *calibrator's* bin count — exactly, in exact arithmetic.  `ECE_v2`
never forwards its `M` argument to the calibrator, so the agreement is with
`ECE(·, ·, hbDefaultBins)`, not with `ECE(·, ·, M)`. -/
theorem C1_ECE_v2_eq_ECE_at_calibrator_bins {N K : ℕ}
    (P : Fin N → Fin (K + 1) → ℚ) (y : Fin N → Fin (K + 1)) (M : ℕ)
    (h0 : ∀ i k, 0 ≤ P i k) (h1 : ∀ i, ∑ k, P i k = 1) :
    ECE_v2 P y M = ECE P y hbDefaultBins := by
  have hc : ∀ i, 0 < conf P i ∧ conf P i ≤ 1 :=
    fun i => conf_mem_Ioc P i (h0 i) (h1 i)
  show (∑ i, |hbCal hbDefaultBins P y i - hbBinned hbDefaultBins P i|) /
      N * 100 = ECE P y hbDefaultBins
  exact histogram_ece_eq hbDefaultBins (by norm_num [hbDefaultBins]) P y hc

/-- C1 witness: the amended equivalence instantiated at the concrete matrix
`exP`, labels `exY`, and (ignored) `M = 5`. -/
theorem C1_witness : ECE_v2 exP exY 5 = ECE exP exY hbDefaultBins :=
  C1_ECE_v2_eq_ECE_at_calibrator_bins exP exY 5
    (fun i k => by fin_cases i <;> fin_cases k <;> norm_num [exP])
    (fun i => by fin_cases i <;> rw [Fin.sum_univ_two] <;> norm_num [exP])

theorem firstArgmax_two (v : Fin 2 → ℚ) :
    firstArgmax v = if v 0 < v 1 then 1 else 0 := by
  have hfr : List.finRange 2 = [0, 1] := by decide
  unfold firstArgmax
  rw [hfr, List.argmax_cons, List.argmax_singleton]
  by_cases h : v 0 < v 1
  · simp [h]
  · simp [h]

theorem exP_conf_zero : conf exP 0 = 13 / 20 := by
  have hp : preds exP 0 = 0 := by
    unfold preds
    rw [firstArgmax_two]
    norm_num [exP]
  unfold conf
  rw [hp]
  norm_num [exP]

theorem exP_conf_one : conf exP 1 = 3 / 4 := by
  have hp : preds exP 1 = 0 := by
    unfold preds
    rw [firstArgmax_two]
    norm_num [exP]
  unfold conf
  rw [hp]
  norm_num [exP]

theorem exP_preds_zero : preds exP 0 = 0 := by
  unfold preds
  rw [firstArgmax_two]
  norm_num [exP]

theorem exP_preds_one : preds exP 1 = 0 := by
  unfold preds
  rw [firstArgmax_two]
  norm_num [exP]

theorem exP_binSamples_empty (j : ℕ) (hj : j ∈ ({0, 1, 2, 4} : Finset ℕ)) :
    binSamples exP 5 j = ∅ := by
  apply Finset.filter_false_of_mem
  intro i _
  fin_cases i <;> fin_cases hj <;>
    norm_num [inBin, exP_conf_zero, exP_conf_one]

theorem exP_binSamples_three : binSamples exP 5 3 = Finset.univ := by
  apply Finset.filter_true_of_mem
  intro i _
  fin_cases i <;>
    norm_num [inBin, exP_conf_zero, exP_conf_one]

theorem exP_correct_filter :
    Finset.univ.filter (fun i => preds exP i = exY i) = {0} := by
  ext i
  simp only [Finset.mem_filter, Finset.mem_univ, true_and, Finset.mem_singleton]
  fin_cases i
  · simp [exP_preds_zero, exY]
  · simp [exP_preds_one, exY]

theorem ECE_exP_five : ECE exP exY 5 = 20 := by
  have hac3 : aveConf exP 5 3 = 7 / 10 := by
    unfold aveConf
    rw [exP_binSamples_three, Fin.sum_univ_two, exP_conf_zero, exP_conf_one]
    norm_num [Finset.card_univ]
  have haa3 : aveAcc exP exY 5 3 = 1 / 2 := by
    unfold aveAcc
    rw [exP_binSamples_three, exP_correct_filter]
    norm_num [Finset.card_univ]
  unfold ECE
  rw [Finset.sum_range_succ, Finset.sum_range_succ, Finset.sum_range_succ,
    Finset.sum_range_succ, Finset.sum_range_succ, Finset.sum_range_zero]
  rw [exP_binSamples_empty 0 (by decide), exP_binSamples_empty 1 (by decide),
    exP_binSamples_empty 2 (by decide), exP_binSamples_empty 4 (by decide),
    exP_binSamples_three, hac3, haa3]
  rw [show |(7 : ℚ) / 10 - 1 / 2| = 1 / 5 from by norm_num]
  norm_num [Finset.card_univ]

theorem exP_binOf_zero : binOf 15 (conf exP 0) = 9 := by
  rw [exP_conf_zero]
  unfold binOf
  push_cast
  rw [show ⌈(13 / 20 : ℚ) * 15⌉ = 10 from by rw [Int.ceil_eq_iff]; norm_num]
  decide

theorem exP_binOf_one : binOf 15 (conf exP 1) = 11 := by
  rw [exP_conf_one]
  unfold binOf
  push_cast
  rw [show ⌈(3 / 4 : ℚ) * 15⌉ = 12 from by rw [Int.ceil_eq_iff]; norm_num]
  decide

theorem exP_hbSet_zero : hbSet 15 exP 0 = {0} := by
  ext i
  simp only [hbSet, Finset.mem_filter, Finset.mem_univ, true_and,
    Finset.mem_singleton]
  fin_cases i
  · simp
  · simp [exP_binOf_zero, exP_binOf_one]

theorem exP_hbSet_one : hbSet 15 exP 1 = {1} := by
  ext i
  simp only [hbSet, Finset.mem_filter, Finset.mem_univ, true_and,
    Finset.mem_singleton]
  fin_cases i
  · simp [exP_binOf_zero, exP_binOf_one]
  · simp

theorem ECE_v2_exP_five : ECE_v2 exP exY 5 = 55 := by
  have hcal0 : hbCal 15 exP exY 0 = 1 := by
    unfold hbCal
    rw [exP_hbSet_zero]
    rw [show ({0} : Finset (Fin 2)).filter (fun i' => preds exP i' = exY i') =
        {0} from by
      apply Finset.filter_true_of_mem
      intro i hi
      rw [Finset.mem_singleton] at hi
      subst hi
      rw [exP_preds_zero]
      rfl]
    norm_num
  have hcal1 : hbCal 15 exP exY 1 = 0 := by
    unfold hbCal
    rw [exP_hbSet_one]
    rw [show ({1} : Finset (Fin 2)).filter (fun i' => preds exP i' = exY i') =
        ∅ from by
      apply Finset.filter_false_of_mem
      intro i hi
      rw [Finset.mem_singleton] at hi
      subst hi
      rw [exP_preds_one]
      decide]
    norm_num
  have hbn0 : hbBinned 15 exP 0 = 13 / 20 := by
    unfold hbBinned
    rw [exP_hbSet_zero, Finset.sum_singleton, exP_conf_zero]
    norm_num
  have hbn1 : hbBinned 15 exP 1 = 3 / 4 := by
    unfold hbBinned
    rw [exP_hbSet_one, Finset.sum_singleton, exP_conf_one]
    norm_num
  unfold ECE_v2
  rw [show hbDefaultBins = 15 from rfl]
  rw [Fin.sum_univ_two, hcal0, hcal1, hbn0, hbn1]
  rw [show |(1 : ℚ) - 13 / 20| = 7 / 20 from by norm_num,
    show |(0 : ℚ) - 3 / 4| = 3 / 4 from by norm_num]
  norm_num

/-- C1 counterexample: at the concrete valid input `(exP, exY)` with
`M = 5`, the direct `ECE` is `20` while `ECE_v2` — which ignores its `M`
argument and always lets the calibrator bin with its own default (15) —
is `55`; they differ by far more than the claimed `1e-6` tolerance. -/
theorem C1_counterexample :
    ¬ (|ECE exP exY 5 - ECE_v2 exP exY 5| ≤ 1 / 1000000) := by
  rw [ECE_exP_five, ECE_v2_exP_five]
  norm_num
